import Mathlib

/-!
Verification of the prepona graph library core against its specification.

The development shallowly embeds the Rust sources:
* `src/storage/adj_matrix/mod.rs` (the `AdjMatrix` storage),
* `src/algo/mst/kruskal.rs` (Kruskal minimum spanning forest),
* `src/algo/connected_components.rs` (connected components entry points),
* `src/graph/subgraph/mr_subgraph.rs` (the multi-root subgraph view).

Rust `panic!` calls are modelled with `Except`, `HashSet` with `Finset Nat`,
`Vec` with `List`, and machine integers with `Nat`.  Pieces of the repository
that are referenced but whose source is not available (the `utils` index
module, the id map, the DFS engine and the `Subgraph` type) are modelled from
the specification and marked as such in their doc comments.
-/

namespace Prepona

/-- Edge direction marker, from `crate::graph::EdgeType`. -/
inductive EdgeType where
  | Directed : EdgeType
  | Undirected : EdgeType
deriving DecidableEq, Repr

/-- Whether the edge type is directed. -/
def EdgeType.is_directed : EdgeType → Bool
  | .Directed => true
  | .Undirected => false

/-- Whether the edge type is undirected. -/
def EdgeType.is_undirected : EdgeType → Bool
  | .Directed => false
  | .Undirected => true

/-- The `magnitude::Magnitude` weight type: a finite weight or an infinity.
`PosInfinite` is the absence sentinel used by the adjacency matrix. -/
inductive Magnitude (W : Type) where
  | Finite : W → Magnitude W
  | PosInfinite : Magnitude W
  | NegInfinite : Magnitude W
deriving DecidableEq, Repr

/-- The adjacency matrix storage state, from `AdjMatrix<W>` in
`src/storage/adj_matrix/mod.rs`.  The backing `Vec` is a list, the
`HashSet` of reusable ids is a `Finset`. -/
structure AdjMatrix (W : Type) where
  vec : List (Magnitude W)
  reusable_ids : Finset Nat
  vertex_count : Nat
  edge_type : EdgeType
deriving DecidableEq

namespace AdjMatrix

variable {W : Type}

/-- `AdjMatrix::init`: empty storage with the given edge type. -/
def init (W : Type) (edge_type : EdgeType) : AdjMatrix W :=
  { vec := [], reusable_ids := ∅, vertex_count := 0, edge_type := edge_type }

/-- `AdjMatrix::is_directed`. -/
def is_directed (s : AdjMatrix W) : Bool := s.edge_type.is_directed

/-- `AdjMatrix::is_undirected`. -/
def is_undirected (s : AdjMatrix W) : Bool := s.edge_type.is_undirected

/-- `AdjMatrix::total_vertex_count`: live count plus reusable ids. -/
def total_vertex_count (s : AdjMatrix W) : Nat :=
  s.vertex_count + s.reusable_ids.card

/-- `AdjMatrix::next_reusable_id`: pop some element of the reusable set.
The Rust code takes the first element of `HashSet` iteration; the embedding
deterministically picks the least element to stand for that choice. -/
def next_reusable_id (s : AdjMatrix W) : Option (Nat × AdjMatrix W) :=
  if h : s.reusable_ids.Nonempty then
    some (s.reusable_ids.min' h,
      { s with reusable_ids := s.reusable_ids.erase (s.reusable_ids.min' h) })
  else
    none

/-- `Vec::resize_with(new_size, || Magnitude::PosInfinite)`: pad with the
sentinel up to `new_size`, or truncate when `new_size` is smaller. -/
def resizeWith (l : List (Magnitude W)) (new_size : Nat) : List (Magnitude W) :=
  if l.length ≤ new_size then l ++ List.replicate (new_size - l.length) Magnitude.PosInfinite
  else l.take new_size

/-- `AdjMatrix::add_vertex` (the `GraphStorage` impl): recycle an id if one
exists, otherwise grow the backing storage by the direction-specific formula,
increment the live count, and return the previous count as the fresh id. -/
def add_vertex (s : AdjMatrix W) : Nat × AdjMatrix W :=
  match next_reusable_id s with
  | some (reusable_id, s1) => (reusable_id, s1)
  | none =>
      let new_size :=
        if s.is_directed then s.vec.length + 2 * s.total_vertex_count + 1
        else s.total_vertex_count + 1
      let s1 : AdjMatrix W :=
        { s with vec := resizeWith s.vec new_size, vertex_count := s.vertex_count + 1 }
      (s1.vertex_count - 1, s1)

/-- Failure conditions of indexed access, from the `panic!` calls in the
`Index`/`IndexMut` impls: an id currently in the reusable set, or a computed
slot index past the end of the backing storage. -/
inductive IndexError where
  | invalidVertex : Nat → IndexError
  | outOfBounds : Nat → Nat → IndexError
deriving DecidableEq, Repr

/-- Modelled from the spec: the `utils::from_ij` slot-index formula, whose
source module is not in the repository snapshot.  For an undirected storage
only the triangular half including the diagonal is stored and `(i,j)` and
`(j,i)` resolve to the same slot through a closed form over `min`/`max`;
for a directed storage the conceptual n×n matrix is linearized so that
vertex `k` occupies the slot block from `k*k` to `(k+1)*(k+1) - 1`,
matching the `2k+1` growth per added vertex. -/
def from_ij (i j : Nat) (dir : Bool) : Nat :=
  if dir then (max i j) * (max i j) + (max i j) + i - j
  else (max i j) * (max i j + 1) / 2 + min i j

/-- The `Index` impl for `AdjMatrix`: check both vertices are not reusable,
compute the slot index, and read it when in bounds. -/
def index (s : AdjMatrix W) (i j : Nat) : Except IndexError (Magnitude W) :=
  if i ∈ s.reusable_ids then .error (.invalidVertex i)
  else if j ∈ s.reusable_ids then .error (.invalidVertex j)
  else if h : from_ij i j s.is_directed < s.vec.length then
    .ok (s.vec.get ⟨from_ij i j s.is_directed, h⟩)
  else .error (.outOfBounds i j)

/-- The `IndexMut` impl for `AdjMatrix`, used as a slot write: same checks
as `index`, then overwrite the slot. -/
def index_set (s : AdjMatrix W) (i j : Nat) (v : Magnitude W) :
    Except IndexError (AdjMatrix W) :=
  if i ∈ s.reusable_ids then .error (.invalidVertex i)
  else if j ∈ s.reusable_ids then .error (.invalidVertex j)
  else if from_ij i j s.is_directed < s.vec.length then
    .ok { s with vec := s.vec.set (from_ij i j s.is_directed) v }
  else .error (.outOfBounds i j)

/-- `AdjMatrix::add_edge`: write the weight through `IndexMut`. -/
def add_edge (s : AdjMatrix W) (vertex1 vertex2 : Nat) (edge : Magnitude W) :
    Except IndexError (AdjMatrix W) :=
  index_set s vertex1 vertex2 edge

/-- `AdjMatrix::remove_edge`: swap the sentinel into the slot and return the
previous value.  The `mem::swap` through `IndexMut` is modelled as a read of
the slot followed by a write of the sentinel. -/
def remove_edge (s : AdjMatrix W) (vertex1 vertex2 : Nat) :
    Except IndexError (Magnitude W × AdjMatrix W) :=
  match index s vertex1 vertex2 with
  | .error e => .error e
  | .ok old =>
    match index_set s vertex1 vertex2 Magnitude.PosInfinite with
    | .error e => .error e
    | .ok s1 => .ok (old, s1)

/-- `AdjMatrix::remove_vertex`: insert the id into the reusable set, then
reset every slot `(id, other)` and `(other, id)` through `IndexMut` for
`other` below the total vertex count, then decrement the live count.
Each slot write can fail exactly as the Rust indexing panics. -/
def remove_vertex (s : AdjMatrix W) (vertex_id : Nat) :
    Except IndexError (AdjMatrix W) := do
  let s0 : AdjMatrix W := { s with reusable_ids := insert vertex_id s.reusable_ids }
  let s1 ← (List.range s0.total_vertex_count).foldlM
    (fun st other_id => do
      let st1 ← index_set st vertex_id other_id Magnitude.PosInfinite
      index_set st1 other_id vertex_id Magnitude.PosInfinite) s0
  return { s1 with vertex_count := s1.vertex_count - 1 }

/-- The state reached from a fresh storage by `n` calls to `add_vertex`. -/
def addVertexN (edge_type : EdgeType) : Nat → AdjMatrix Nat
  | 0 => init Nat edge_type
  | n + 1 => (add_vertex (addVertexN edge_type n)).2

/-- The ids an observer of the storage regards as live: allocated (below the
total vertex count) and not currently in the reusable set. -/
def liveIds (s : AdjMatrix W) : Finset Nat :=
  (Finset.range s.total_vertex_count) \ s.reusable_ids

end AdjMatrix

/-- A vertex-level mutation of the storage, for stating properties of
operation sequences. -/
inductive StorageOp where
  | addV : StorageOp
  | removeV : Nat → StorageOp
deriving DecidableEq, Repr

/-- Run one storage operation, failing exactly when the Rust code panics. -/
def applyOp (s : AdjMatrix Nat) :
    StorageOp → Except AdjMatrix.IndexError (AdjMatrix Nat)
  | .addV => .ok (AdjMatrix.add_vertex s).2
  | .removeV id => AdjMatrix.remove_vertex s id

/-- Run a sequence of `add_vertex`/`remove_vertex` operations on a fresh
storage, failing as soon as one operation fails. -/
def execOps (edge_type : EdgeType) (ops : List StorageOp) :
    Except AdjMatrix.IndexError (AdjMatrix Nat) :=
  ops.foldlM applyOp (AdjMatrix.init Nat edge_type)

/-- Modelled from the spec: the view of a graph consumed by
`ConnectedComponents` through the capability traits and the continuous id
map (`provide::Graph + Vertices + Neighbors`); the trait implementations are
not in the repository snapshot.  `neighborsOf` is adjacency over virtual
(contiguous) ids, and `virtToReal` is the id-map lookup back to real ids,
total here because the engine only queries virtual ids below `vertexCount`,
on which the spec makes the map a bijection. -/
structure CCGraph where
  is_directed : Bool
  vertexCount : Nat
  neighborsOf : Nat → List Nat
  virtToReal : Nat → Nat

/-- The `ConnectedComponents` listener state from
`src/algo/connected_components.rs`: the component being built and the sealed
components. -/
structure ConnectedComponents where
  current_component : List Nat
  ccs : List (List Nat)
deriving DecidableEq, Repr

/-- `ConnectedComponents::init`: panic (modelled as `Except.error` carrying
the panic message) when the graph is directed, otherwise the empty listener
state. -/
def ConnectedComponents.init (g : CCGraph) : Except String ConnectedComponents :=
  if g.is_directed then
    .error "Can not execute this algorithm on an undirected graph. Use one of the algorithms in scc module."
  else
    .ok { current_component := [], ccs := [] }

/-- Modelled from the spec: one tree of the DFS engine (whose source is not
in the repository snapshot), driving the `ConnectedComponents` listener.
A white vertex is marked visited and `on_white` appends its real id to the
component under construction, then the engine recurses into each not-yet
visited neighbor.  The fuel argument bounds the recursion depth; any fuel
larger than the vertex count is enough. -/
def dfsVisit (nbrs : Nat → List Nat) (v2r : Nat → Nat) :
    Nat → Nat → Finset Nat × ConnectedComponents →
      Finset Nat × ConnectedComponents
  | 0, _, st => st
  | fuel + 1, v, st =>
      if v ∈ st.1 then st
      else
        let st1 : Finset Nat × ConnectedComponents :=
          (insert v st.1,
           { st.2 with current_component := st.2.current_component ++ [v2r v] })
        (nbrs v).foldl (fun acc u => dfsVisit nbrs v2r fuel u acc) st1

/-- Modelled from the spec: the outer DFS loop.  It restarts at every still
unvisited vertex, and when a tree is exhausted fires `on_finish` once, which
seals the current component.  Note that the loop reads only the vertex
count, the adjacency and the id map of the graph; it never consults the
direction flag. -/
def dfsExecute (g : CCGraph) (cc : ConnectedComponents) : ConnectedComponents :=
  ((List.range g.vertexCount).foldl
    (fun (st : Finset Nat × ConnectedComponents) v =>
      if v ∈ st.1 then st
      else
        let st1 := dfsVisit g.neighborsOf g.virtToReal (g.vertexCount + 1) v st
        (st1.1, { current_component := [], ccs := st1.2.ccs ++ [st1.2.current_component] }))
    (∅, cc)).2

/-- `ConnectedComponents::execute`: run the DFS against the graph with this
listener and return the sealed components. -/
def ConnectedComponents.execute (cc : ConnectedComponents) (g : CCGraph) :
    List (List Nat) :=
  (dfsExecute g cc).ccs

/-- A one-vertex directed graph used to instantiate C8. -/
def sampleDirectedGraph : CCGraph :=
  { is_directed := true, vertexCount := 1, neighborsOf := fun _ => [],
    virtToReal := fun v => v }

/-- Modelled from the spec: the read-only `Subgraph` view (its source is not
in the repository snapshot), recorded abstractly as the results of its
capability-trait operations over the filtered collections.  C9 only needs
that the multi-root wrapper returns exactly what the wrapped subgraph
returns. -/
structure Subgraph (E : Type) where
  neighborsFn : Nat → List Nat
  verticesFn : List Nat
  edgesFromFn : Nat → List (Nat × E)
  edgesBetweenFn : Nat → Nat → List E
  edgeBetweenFn : Nat → Nat → Nat → Option E
  edgeFn : Nat → Option E
  hasAnyEdgeFn : Nat → Nat → Bool
  edgesFn : List (Nat × Nat × E)
  asDirectedEdgesFn : List (Nat × Nat × E)
  edgesCountFn : Nat

/-- `MultiRootSubgraph` from `src/graph/subgraph/mr_subgraph.rs`: a subgraph
plus the designated roots. -/
structure MultiRootSubgraph (E : Type) where
  roots : List Nat
  subgraph : Subgraph E

namespace MultiRootSubgraph

variable {E : Type}

/-- `MultiRootSubgraph::init`.  The Rust code builds the inner view with
`Subgraph::init(graph, edges, vertices)`, whose source is outside the
snapshot; the already-constructed inner subgraph stands for that result. -/
def init (subgraph : Subgraph E) (roots : List Nat) : MultiRootSubgraph E :=
  { roots := roots, subgraph := subgraph }

/-- `MultiRootSubgraph::is_root`: linear scan of the root list. -/
def is_root (g : MultiRootSubgraph E) (vertex_id : Nat) : Bool :=
  (g.roots.find? (fun root_id => root_id == vertex_id)).isSome

/-- The `Neighbors` impl: delegate to the subgraph. -/
def neighbors (g : MultiRootSubgraph E) (src_id : Nat) : List Nat :=
  g.subgraph.neighborsFn src_id

/-- The `Vertices` impl: delegate to the subgraph. -/
def vertices (g : MultiRootSubgraph E) : List Nat :=
  g.subgraph.verticesFn

/-- The `Edges` impl, `edges_from`: delegate to the subgraph. -/
def edges_from (g : MultiRootSubgraph E) (src_id : Nat) : List (Nat × E) :=
  g.subgraph.edgesFromFn src_id

/-- The `Edges` impl, `edges_between`: delegate to the subgraph. -/
def edges_between (g : MultiRootSubgraph E) (src_id dst_id : Nat) : List E :=
  g.subgraph.edgesBetweenFn src_id dst_id

/-- The `Edges` impl, `edge_between`: delegate to the subgraph. -/
def edge_between (g : MultiRootSubgraph E) (src_id dst_id edge_id : Nat) :
    Option E :=
  g.subgraph.edgeBetweenFn src_id dst_id edge_id

/-- The `Edges` impl, `edge`: delegate to the subgraph. -/
def edge (g : MultiRootSubgraph E) (edge_id : Nat) : Option E :=
  g.subgraph.edgeFn edge_id

/-- The `Edges` impl, `has_any_edge`: delegate to the subgraph. -/
def has_any_edge (g : MultiRootSubgraph E) (src_id dst_id : Nat) : Bool :=
  g.subgraph.hasAnyEdgeFn src_id dst_id

/-- The `Edges` impl, `edges`: delegate to the subgraph. -/
def edges (g : MultiRootSubgraph E) : List (Nat × Nat × E) :=
  g.subgraph.edgesFn

/-- The `Edges` impl, `as_directed_edges`: delegate to the subgraph. -/
def as_directed_edges (g : MultiRootSubgraph E) : List (Nat × Nat × E) :=
  g.subgraph.asDirectedEdgesFn

/-- The `Edges` impl, `edges_count`: delegate to the subgraph. -/
def edges_count (g : MultiRootSubgraph E) : Nat :=
  g.subgraph.edgesCountFn

end MultiRootSubgraph

/-- A small concrete subgraph view used to instantiate C9. -/
def sampleSubgraph : Subgraph Nat :=
  { neighborsFn := fun _ => [], verticesFn := [3, 5],
    edgesFromFn := fun _ => [], edgesBetweenFn := fun _ _ => [],
    edgeBetweenFn := fun _ _ _ => none, edgeFn := fun _ => none,
    hasAnyEdgeFn := fun _ _ => false, edgesFn := [],
    asDirectedEdgesFn := [], edgesCountFn := 0 }

/-- Modelled from the spec: the graph view consumed by Kruskal through the
`Vertices`/`Edges` capability traits and the continuous id map, whose trait
implementations are not in the repository snapshot.  `verts` is the set of
live real vertex ids and `edgeList` is what `graph.edges()` returns: for an
undirected storage, each stored edge appears once in each direction as a
`(src real id, dst real id, weight)` triple. -/
structure KGraph (W : Type) where
  verts : Finset Nat
  edgeList : List (Nat × Nat × W)

namespace KGraph

variable {W : Type}

/-- `graph.vertex_count()`: the number of live vertices. -/
def vertexCount (g : KGraph W) : Nat := g.verts.card

/-- Modelled from the spec: `continuos_id_map().virt_id_of(real)`, the
bijection from live real ids to virtual ids `0..count` ordered by ascending
real id. -/
def virtOf (g : KGraph W) (real_id : Nat) : Nat :=
  (g.verts.sort (· ≤ ·)).indexOf real_id

/-- The single-direction enumeration of the undirected edges that Kruskal
builds: keep only triples with `src_id < dst_id`. -/
def canonicalEdges (g : KGraph W) : List (Nat × Nat × W) :=
  g.edgeList.filter (fun e => decide (e.1 < e.2.1))

end KGraph

/-- The edge list Kruskal iterates: deduplicate to a single direction, then
sort ascending by weight with the stable merge sort standing for Rust's
stable `sort_by` on the weight comparison. -/
def kruskalEdges {W : Type} [LinearOrder W] (g : KGraph W) :
    List (Nat × Nat × W) :=
  (KGraph.canonicalEdges g).mergeSort (fun e1 e2 => decide (e1.2.2 ≤ e2.2.2))

/-- The Kruskal disjoint-set state from `src/algo/mst/kruskal.rs`: one set
of virtual ids per virtual id.  The Rust `Vec<Rc<RefCell<HashSet<usize>>>>`
is modelled as the function sending each virtual id to the set its slot
currently aliases; repointing every member of a merged set to the shared
union object becomes a pointwise functional update of the members. -/
structure Kruskal where
  sets : Nat → Finset Nat

/-- `Kruskal::init`: one singleton set per virtual id. -/
def Kruskal.init {W : Type} (_g : KGraph W) : Kruskal :=
  { sets := fun virt_id => {virt_id} }

/-- One iteration of the edge loop in `Kruskal::execute`: if the endpoint
sets differ, push the edge into the result and repoint every member of the
union to the shared union set. -/
def kruskalStep {W : Type} (g : KGraph W) (st : Kruskal × List (Nat × Nat))
    (e : Nat × Nat × W) : Kruskal × List (Nat × Nat) :=
  let v_virt := g.virtOf e.1
  let u_virt := g.virtOf e.2.1
  if st.1.sets v_virt ≠ st.1.sets u_virt then
    let union_set := st.1.sets v_virt ∪ st.1.sets u_virt
    ({ sets := fun i => if i ∈ union_set then union_set else st.1.sets i },
      st.2 ++ [(e.1, e.2.1)])
  else st

/-- `Kruskal::execute`: fold the weight-sorted deduplicated edges through
the union-find loop and return the accepted `(src, dst)` real-id pairs. -/
def Kruskal.execute {W : Type} [LinearOrder W] (k : Kruskal) (g : KGraph W) :
    List (Nat × Nat) :=
  ((kruskalEdges g).foldl (kruskalStep g) (k, [])).2

/-- Ghost-instrumented variant of `kruskalStep` that keeps the accepted
edges with their weights, used to state the weight-minimality of the result;
`kruskalStep` is its projection. -/
def kruskalStepFull {W : Type} (g : KGraph W)
    (st : Kruskal × List (Nat × Nat × W)) (e : Nat × Nat × W) :
    Kruskal × List (Nat × Nat × W) :=
  let v_virt := g.virtOf e.1
  let u_virt := g.virtOf e.2.1
  if st.1.sets v_virt ≠ st.1.sets u_virt then
    let union_set := st.1.sets v_virt ∪ st.1.sets u_virt
    ({ sets := fun i => if i ∈ union_set then union_set else st.1.sets i },
      st.2 ++ [e])
  else st

/-- The instrumented Kruskal run. -/
def kruskalRunFull {W : Type} [LinearOrder W] (g : KGraph W) :
    Kruskal × List (Nat × Nat × W) :=
  (kruskalEdges g).foldl (kruskalStepFull g) (Kruskal.init g, [])

/-- Forget the weight of an edge triple. -/
def projE {W : Type} (e : Nat × Nat × W) : Nat × Nat := (e.1, e.2.1)

/-- One undirected step along a list of edge pairs: the two vertices are
joined by an edge stored in either orientation. -/
def EStep (l : List (Nat × Nat)) (x y : Nat) : Prop :=
  (x, y) ∈ l ∨ (y, x) ∈ l

/-- Undirected connectivity along a list of edge pairs. -/
def EReach (l : List (Nat × Nat)) : Nat → Nat → Prop :=
  Relation.ReflTransGen (EStep l)

/-- A list of undirected edges is acyclic (a forest in the multigraph
sense) iff every edge occurrence is a bridge: its endpoints are not
connected by the remaining occurrences. -/
def EAcyclic (l : List (Nat × Nat)) : Prop :=
  ∀ l1 e l2, l = l1 ++ e :: l2 → ¬ EReach (l1 ++ l2) e.1 e.2

/-- Undirected connectivity along weighted edge triples. -/
def WReach {W : Type} (l : List (Nat × Nat × W)) (x y : Nat) : Prop :=
  EReach (l.map projE) x y

/-- Acyclicity of a list of weighted edge triples. -/
def WAcyclic {W : Type} (l : List (Nat × Nat × W)) : Prop :=
  EAcyclic (l.map projE)

/-- A transversal of the connected components: one representative per
component of the multigraph `(verts, l)`. -/
def IsRepsFor (verts : Finset Nat) (l : List (Nat × Nat)) (reps : Finset Nat) : Prop :=
  reps ⊆ verts ∧
  (∀ v ∈ verts, ∃ r ∈ reps, EReach l r v) ∧
  (∀ r1 ∈ reps, ∀ r2 ∈ reps, EReach l r1 r2 → r1 = r2)

/-- A transversal of the connected components of the input graph itself. -/
def KGraph.IsComponentReps {W : Type} (g : KGraph W) (reps : Finset Nat) : Prop :=
  IsRepsFor g.verts (g.edgeList.map projE) reps

/-- A spanning forest of the graph: a sub-multiset of the single-direction
undirected edge enumeration that is acyclic and connects the endpoints of
every graph edge. -/
def IsSpanningForest {W : Type} (g : KGraph W) (S : List (Nat × Nat × W)) : Prop :=
  S.Subperm (KGraph.canonicalEdges g) ∧ WAcyclic S ∧
  ∀ e ∈ g.edgeList, WReach S e.1 e.2.1

/-- Total weight of a list of weighted edges. -/
def weightSum {W : Type} [AddCommMonoid W] (S : List (Nat × Nat × W)) : W :=
  (S.map (fun e => e.2.2)).sum

/-- The undirected six-vertex scenario of the specification (vertices
`a..f` as `0..5`, edges `a-b(1), a-c(3), a-f(3), b-c(5), b-d(1), d-c(2),
d-e(4), e-c(1), e-f(5)`), with every undirected edge listed once in each
direction as `graph.edges()` does. -/
def sampleKGraph : KGraph Nat :=
  { verts := {0, 1, 2, 3, 4, 5},
    edgeList := [(0, 1, 1), (1, 0, 1), (0, 2, 3), (2, 0, 3), (0, 5, 3),
      (5, 0, 3), (1, 2, 5), (2, 1, 5), (1, 3, 1), (3, 1, 1), (3, 2, 2),
      (2, 3, 2), (3, 4, 4), (4, 3, 4), (4, 2, 1), (2, 4, 1), (4, 5, 5),
      (5, 4, 5)] }

/-- Adequacy of the union-find state: the set aliased by the slot of a live
vertex holds exactly the virtual ids of the vertices connected to it by the
accepted edges. -/
def SetsGood {W : Type} (g : KGraph W) (acc : List (Nat × Nat)) (k : Kruskal) : Prop :=
  ∀ u ∈ g.verts, ∀ j,
    j ∈ k.sets (g.virtOf u) ↔ ∃ v ∈ g.verts, g.virtOf v = j ∧ EReach acc u v

/-- The invariant of the Kruskal edge loop after processing the prefix `Q`
of the sorted edge list, with union-find state `k` and accepted edges
`accF`: the accepted edges are a subsequence of the processed ones, they are
acyclic, every processed edge is either accepted or has its endpoints
connected by accepted edges of no larger weight, and the union-find state is
adequate for the accepted edges. -/
def KruskalInv {W : Type} [LinearOrder W] (g : KGraph W)
    (Q : List (Nat × Nat × W)) (k : Kruskal) (accF : List (Nat × Nat × W)) : Prop :=
  List.Sublist accF Q ∧
  WAcyclic accF ∧
  (∀ e ∈ Q, e ∈ accF ∨
    WReach (accF.filter (fun x => decide (x.2.2 ≤ e.2.2))) e.1 e.2.1) ∧
  SetsGood g (accF.map projE) k

/-! ## Theorems about the adjacency-matrix storage -/

namespace AdjMatrix

theorem next_reusable_id_of_empty {W : Type} (s : AdjMatrix W)
    (h : s.reusable_ids = ∅) : next_reusable_id s = none := by
  simp [next_reusable_id, h]

theorem resizeWith_replicate {W : Type} (k n : Nat) (h : k ≤ n) :
    resizeWith (W := W) (List.replicate k Magnitude.PosInfinite) n =
      List.replicate n Magnitude.PosInfinite := by
  rw [resizeWith, if_pos (by simpa using h)]
  rw [List.length_replicate, ← List.replicate_add]
  congr 1
  omega

theorem add_vertex_fresh {W : Type} (s : AdjMatrix W) (h : s.reusable_ids = ∅) :
    add_vertex s = (s.vertex_count,
      { s with
        vec := resizeWith s.vec
          (if s.is_directed then s.vec.length + 2 * s.total_vertex_count + 1
           else s.total_vertex_count + 1),
        vertex_count := s.vertex_count + 1 }) := by
  rw [add_vertex, next_reusable_id_of_empty _ h]
  simp

theorem addVertexN_directed (n : Nat) :
    addVertexN EdgeType.Directed n =
      ⟨List.replicate (n * n) Magnitude.PosInfinite, ∅, n, EdgeType.Directed⟩ := by
  induction n with
  | zero => rfl
  | succ n ih =>
      rw [addVertexN, ih, add_vertex_fresh _ rfl]
      simp only [total_vertex_count, is_directed, EdgeType.is_directed,
        List.length_replicate, Finset.card_empty, Nat.add_zero, if_true]
      rw [resizeWith_replicate _ _ (by omega)]
      have harith : n * n + 2 * n + 1 = (n + 1) * (n + 1) := by ring
      rw [harith]

theorem addVertexN_undirected (n : Nat) :
    addVertexN EdgeType.Undirected n =
      ⟨List.replicate n Magnitude.PosInfinite, ∅, n, EdgeType.Undirected⟩ := by
  induction n with
  | zero => rfl
  | succ n ih =>
      rw [addVertexN, ih, add_vertex_fresh _ rfl]
      simp only [total_vertex_count, is_directed, EdgeType.is_directed,
        List.length_replicate, Finset.card_empty, Nat.add_zero,
        Bool.false_eq_true, if_false]
      rw [resizeWith_replicate _ _ (by omega)]

/-- The claim of C1 states that after `n` calls of `add_vertex` on an empty
undirected storage the backing storage has `n * (n + 1) / 2` slots.  The code
computes the new undirected size as `total_vertex_count() + 1` without adding
the current length, so the backing storage of an undirected matrix has only
`n` slots; at `n = 2` the code yields length `2` while the claim requires
`3`.  The directed half of the claim (`n * n` slots, growth of `2k + 1` per
added vertex) does hold. -/
theorem claim_C1_undirected_growth_diverges :
    (addVertexN EdgeType.Undirected 2).vec.length = 2 ∧
    (addVertexN EdgeType.Undirected 2).vec.length ≠ 2 * (2 + 1) / 2 ∧
    (∀ n, (addVertexN EdgeType.Undirected n).vec.length = n) ∧
    (∀ n, (addVertexN EdgeType.Directed n).vec.length = n * n) ∧
    (∀ n, (addVertexN EdgeType.Directed (n + 1)).vec.length =
      (addVertexN EdgeType.Directed n).vec.length + 2 * n + 1) := by
  refine ⟨by rw [addVertexN_undirected]; rfl, by rw [addVertexN_undirected]; decide,
    fun n => by rw [addVertexN_undirected]; simp,
    fun n => by rw [addVertexN_directed]; simp,
    fun n => by rw [addVertexN_directed, addVertexN_directed]; simp; ring⟩

theorem index_set_of_mem_left {W : Type} (s : AdjMatrix W) (i j : Nat)
    (v : Magnitude W) (h : i ∈ s.reusable_ids) :
    index_set s i j v = .error (.invalidVertex i) := by
  simp [index_set, h]

theorem foldlM_clear_fails {W : Type} (s0 : AdjMatrix W) (vertex_id t : Nat)
    (h : vertex_id ∈ s0.reusable_ids) (ht : 0 < t) :
    (List.range t).foldlM
      (fun st other_id => do
        let st1 ← index_set st vertex_id other_id Magnitude.PosInfinite
        index_set st1 other_id vertex_id Magnitude.PosInfinite) s0
    = Except.error (IndexError.invalidVertex vertex_id) := by
  obtain ⟨m, rfl⟩ : ∃ m, t = m + 1 := ⟨t - 1, by omega⟩
  rw [List.range_succ_eq_map, List.foldlM_cons]
  rw [show (do
        let st1 ← index_set s0 vertex_id 0 Magnitude.PosInfinite
        index_set st1 0 vertex_id Magnitude.PosInfinite)
      = Except.error (IndexError.invalidVertex vertex_id) by
    rw [index_set_of_mem_left _ _ _ _ h]; rfl]
  rfl

/-- C2 is a code bug: `remove_vertex` inserts the id into the reusable set
before clearing the incident slots, and the slot writes go through the
`IndexMut` implementation, which panics whenever either index is in the
reusable set.  Since inserting makes the total vertex count positive, the
very first slot write `(vertex_id, 0)` panics, so `remove_vertex` fails on
every input, including a live id, where the claim requires success. -/
theorem claim_C2_remove_vertex_always_fails {W : Type} (s : AdjMatrix W)
    (vertex_id : Nat) :
    remove_vertex s vertex_id = .error (.invalidVertex vertex_id) := by
  have hmem : vertex_id ∈ insert vertex_id s.reusable_ids :=
    Finset.mem_insert_self _ _
  have hpos :
      0 < ({ s with reusable_ids := insert vertex_id s.reusable_ids } :
        AdjMatrix W).total_vertex_count := by
    simp only [total_vertex_count]
    have : 0 < (insert vertex_id s.reusable_ids).card :=
      Finset.card_pos.mpr ⟨vertex_id, hmem⟩
    omega
  rw [remove_vertex]
  rw [foldlM_clear_fails _ vertex_id _ hmem hpos]
  rfl

/-- C4 is a code bug: when a reusable id exists, `add_vertex` returns it but
skips the `vertex_count += 1` that the fresh-id branch performs, so the live
vertex count is unchanged.  Concretely, on a directed storage holding one
slot with id `0` in the reusable set and a live count of `0`, `add_vertex`
returns the recycled id `0` and leaves the live count at `0`, where the
claim requires it to become `1`. -/
theorem claim_C4_recycled_add_skips_increment :
    add_vertex (⟨[Magnitude.PosInfinite], {0}, 0, EdgeType.Directed⟩ : AdjMatrix Nat)
      = (0, ⟨[Magnitude.PosInfinite], ∅, 0, EdgeType.Directed⟩) ∧
    (add_vertex (⟨[Magnitude.PosInfinite], {0}, 0, EdgeType.Directed⟩ :
      AdjMatrix Nat)).2.vertex_count = 0 := ⟨rfl, rfl⟩

end AdjMatrix

/-- C5: after any operation sequence that completes without failure, the
total vertex count equals the live count plus the number of reusable ids,
and no id is simultaneously live and reusable. -/
theorem claim_C5_counts_invariant (edge_type : EdgeType) (ops : List StorageOp)
    (s : AdjMatrix Nat) (h : execOps edge_type ops = .ok s) :
    s.total_vertex_count = s.vertex_count + s.reusable_ids.card ∧
    ∀ id, ¬(id ∈ AdjMatrix.liveIds s ∧ id ∈ s.reusable_ids) := by
  refine ⟨rfl, fun id hid => ?_⟩
  exact (Finset.mem_sdiff.mp hid.1).2 hid.2

theorem claim_C5_witness :
    (⟨List.replicate 4 Magnitude.PosInfinite, ∅, 2, EdgeType.Directed⟩ :
        AdjMatrix Nat).total_vertex_count =
      (⟨List.replicate 4 Magnitude.PosInfinite, ∅, 2, EdgeType.Directed⟩ :
        AdjMatrix Nat).vertex_count +
      (⟨List.replicate 4 Magnitude.PosInfinite, ∅, 2, EdgeType.Directed⟩ :
        AdjMatrix Nat).reusable_ids.card ∧
    ∀ id, ¬(id ∈ AdjMatrix.liveIds
        (⟨List.replicate 4 Magnitude.PosInfinite, ∅, 2, EdgeType.Directed⟩ :
          AdjMatrix Nat) ∧
      id ∈ (⟨List.replicate 4 Magnitude.PosInfinite, ∅, 2, EdgeType.Directed⟩ :
        AdjMatrix Nat).reusable_ids) :=
  claim_C5_counts_invariant EdgeType.Directed [StorageOp.addV, StorageOp.addV] _ rfl

namespace AdjMatrix

theorem index_ok_iff {W : Type} (s : AdjMatrix W) (i j : Nat) (w : Magnitude W) :
    index s i j = .ok w ↔
      i ∉ s.reusable_ids ∧ j ∉ s.reusable_ids ∧
      s.vec[from_ij i j s.is_directed]? = some w := by
  unfold index
  split_ifs with h1 h2 h3
  · simp [h1]
  · simp [h1, h2]
  · simp [h1, h2, List.getElem?_eq_getElem h3, List.get_eq_getElem, eq_comm]
  · simp [h1, h2, List.getElem?_eq_none (Nat.not_lt.mp h3)]

theorem index_set_ok_iff {W : Type} (s : AdjMatrix W) (i j : Nat)
    (v : Magnitude W) (s1 : AdjMatrix W) :
    index_set s i j v = .ok s1 ↔
      i ∉ s.reusable_ids ∧ j ∉ s.reusable_ids ∧
      from_ij i j s.is_directed < s.vec.length ∧
      s1 = { s with vec := s.vec.set (from_ij i j s.is_directed) v } := by
  unfold index_set
  split_ifs with h1 h2 h3
  · simp [h1]
  · simp [h1, h2]
  · simp [h1, h2, h3, eq_comm]
  · simp [h1, h2, h3]

/-- C6: a successful `remove_edge` returns the previous slot value and
writes the absence sentinel into the slot, so a second `remove_edge` on the
same pair returns the sentinel and leaves the state unchanged. -/
theorem claim_C6_remove_edge_idempotent {W : Type} (s : AdjMatrix W)
    (u v : Nat) (w : Magnitude W) (s1 : AdjMatrix W)
    (h : remove_edge s u v = .ok (w, s1)) :
    index s u v = .ok w ∧
    index s1 u v = .ok Magnitude.PosInfinite ∧
    remove_edge s1 u v = .ok (Magnitude.PosInfinite, s1) := by
  rw [remove_edge] at h
  cases hidx : index s u v with
  | error e => rw [hidx] at h; exact absurd h (by simp)
  | ok old =>
    rw [hidx] at h
    cases hset : index_set s u v Magnitude.PosInfinite with
    | error e => rw [hset] at h; exact absurd h (by simp)
    | ok s2 =>
      rw [hset] at h
      have hpair : old = w ∧ s2 = s1 := by simpa using h
      rw [hpair.1] at hidx
      rw [hpair.2] at hset
      obtain ⟨hu, hv, hget⟩ := (index_ok_iff s u v w).mp hidx
      obtain ⟨-, -, hlt, hs1⟩ :=
        (index_set_ok_iff s u v Magnitude.PosInfinite s1).mp hset
      subst hs1
      have hdir : ({ s with
          vec := s.vec.set (from_ij u v s.is_directed) Magnitude.PosInfinite } :
            AdjMatrix W).is_directed = s.is_directed := rfl
      refine ⟨by rw [hpair.1], ?_, ?_⟩
      · rw [index_ok_iff]
        refine ⟨hu, hv, ?_⟩
        rw [hdir]
        exact List.getElem?_set_self hlt
      · rw [remove_edge]
        have hidx1 : index
            ({ s with
              vec := s.vec.set (from_ij u v s.is_directed) Magnitude.PosInfinite } :
                AdjMatrix W) u v = .ok Magnitude.PosInfinite := by
          rw [index_ok_iff]
          exact ⟨hu, hv, by rw [hdir]; exact List.getElem?_set_self hlt⟩
        rw [hidx1]
        have hset1 : index_set
            ({ s with
              vec := s.vec.set (from_ij u v s.is_directed) Magnitude.PosInfinite } :
                AdjMatrix W) u v Magnitude.PosInfinite = .ok
            ({ s with
              vec := s.vec.set (from_ij u v s.is_directed) Magnitude.PosInfinite } :
                AdjMatrix W) := by
          rw [index_set_ok_iff]
          refine ⟨hu, hv, by simpa [hdir] using hlt, ?_⟩
          simp [hdir, List.set_set]
        rw [hset1]

theorem claim_C6_witness :
    index (addVertexN EdgeType.Directed 1) 0 0 = .ok Magnitude.PosInfinite ∧
    index (⟨[Magnitude.PosInfinite], ∅, 1, EdgeType.Directed⟩ : AdjMatrix Nat)
      0 0 = .ok Magnitude.PosInfinite ∧
    remove_edge (⟨[Magnitude.PosInfinite], ∅, 1, EdgeType.Directed⟩ : AdjMatrix Nat)
      0 0 = .ok (Magnitude.PosInfinite,
        (⟨[Magnitude.PosInfinite], ∅, 1, EdgeType.Directed⟩ : AdjMatrix Nat)) :=
  claim_C6_remove_edge_idempotent (addVertexN EdgeType.Directed 1) 0 0
    Magnitude.PosInfinite
    (⟨[Magnitude.PosInfinite], ∅, 1, EdgeType.Directed⟩ : AdjMatrix Nat) rfl

/-- C7: indexed access fails with the invalid-vertex condition when either
vertex is in the reusable set, fails with the out-of-bounds condition when
the computed slot index is not below the backing storage length, succeeds
otherwise, and the two failure conditions are distinct values. -/
theorem claim_C7_index_error_taxonomy {W : Type} (s : AdjMatrix W) (i j : Nat) :
    (i ∈ s.reusable_ids → index s i j = .error (.invalidVertex i)) ∧
    (i ∉ s.reusable_ids → j ∈ s.reusable_ids →
      index s i j = .error (.invalidVertex j)) ∧
    (i ∉ s.reusable_ids → j ∉ s.reusable_ids →
      s.vec.length ≤ from_ij i j s.is_directed →
      index s i j = .error (.outOfBounds i j)) ∧
    (i ∉ s.reusable_ids → j ∉ s.reusable_ids →
      from_ij i j s.is_directed < s.vec.length →
      ∃ w, index s i j = .ok w) ∧
    (∀ a b c, (IndexError.invalidVertex a : IndexError) ≠ .outOfBounds b c) := by
  refine ⟨fun h1 => by simp [index, h1],
    fun h1 h2 => by simp [index, h1, h2],
    fun h1 h2 h3 => by simp [index, h1, h2, Nat.not_lt.mpr h3],
    fun h1 h2 h3 => ⟨s.vec.get ⟨from_ij i j s.is_directed, h3⟩,
      by simp [index, h1, h2, h3]⟩,
    fun a b c => by simp⟩

theorem claim_C7_witness :
    ∃ w, index (addVertexN EdgeType.Directed 1) 0 0 = .ok w :=
  (claim_C7_index_error_taxonomy (addVertexN EdgeType.Directed 1) 0 0).2.2.2.1
    (by decide) (by decide) (by decide)

/-- C10: a successful `add_edge` changes only the addressed slot, leaving the
reusable set, the live count, the edge type, the storage length, and every
other slot unchanged; a successful `remove_edge` likewise only resets the
addressed slot; and for an undirected storage the `(u, v)` and `(v, u)`
accesses resolve to the same slot. -/
theorem claim_C10_edge_ops_frame {W : Type} (s : AdjMatrix W) (u v : Nat)
    (w : Magnitude W) :
    (∀ s1, add_edge s u v w = .ok s1 →
      s1.reusable_ids = s.reusable_ids ∧
      s1.vertex_count = s.vertex_count ∧
      s1.edge_type = s.edge_type ∧
      s1.vec.length = s.vec.length ∧
      s1.vec[from_ij u v s.is_directed]? = some w ∧
      (∀ k, k ≠ from_ij u v s.is_directed → s1.vec[k]? = s.vec[k]?)) ∧
    (∀ old s1, remove_edge s u v = .ok (old, s1) →
      s1.reusable_ids = s.reusable_ids ∧
      s1.vertex_count = s.vertex_count ∧
      s1.edge_type = s.edge_type ∧
      s1.vec.length = s.vec.length ∧
      s1.vec[from_ij u v s.is_directed]? = some Magnitude.PosInfinite ∧
      (∀ k, k ≠ from_ij u v s.is_directed → s1.vec[k]? = s.vec[k]?)) ∧
    (s.is_undirected = true → from_ij u v s.is_directed = from_ij v u s.is_directed) := by
  have hframe : ∀ (x : Magnitude W) (s1 : AdjMatrix W),
      index_set s u v x = .ok s1 →
      s1.reusable_ids = s.reusable_ids ∧
      s1.vertex_count = s.vertex_count ∧
      s1.edge_type = s.edge_type ∧
      s1.vec.length = s.vec.length ∧
      s1.vec[from_ij u v s.is_directed]? = some x ∧
      (∀ k, k ≠ from_ij u v s.is_directed → s1.vec[k]? = s.vec[k]?) := by
    intro x s1 hset
    obtain ⟨hu, hv, hlt, rfl⟩ := (index_set_ok_iff s u v x s1).mp hset
    refine ⟨rfl, rfl, rfl, by simp, ?_, fun k hk => ?_⟩
    · exact List.getElem?_set_self hlt
    · exact List.getElem?_set_ne (fun hcontra => hk hcontra.symm)
  refine ⟨fun s1 h => hframe w s1 h, fun old s1 h => ?_, fun hund => ?_⟩
  · rw [remove_edge] at h
    cases hidx : index s u v with
    | error e => rw [hidx] at h; exact absurd h (by simp)
    | ok o =>
      rw [hidx] at h
      cases hset : index_set s u v Magnitude.PosInfinite with
      | error e => rw [hset] at h; exact absurd h (by simp)
      | ok s2 =>
        rw [hset] at h
        have hpair : o = old ∧ s2 = s1 := by simpa using h
        rw [hpair.2] at hset
        exact hframe Magnitude.PosInfinite s1 hset
  · have : s.is_directed = false := by
      cases het : s.edge_type <;>
        simp_all [is_directed, is_undirected, EdgeType.is_directed,
          EdgeType.is_undirected]
    rw [this]
    simp [from_ij, Nat.max_comm, Nat.min_comm]

theorem claim_C10_witness :
    ((⟨[Magnitude.PosInfinite, Magnitude.Finite 7, Magnitude.PosInfinite,
        Magnitude.PosInfinite], ∅, 2, EdgeType.Directed⟩ :
      AdjMatrix Nat)).vec.length = (addVertexN EdgeType.Directed 2).vec.length :=
  ((claim_C10_edge_ops_frame (addVertexN EdgeType.Directed 2) 0 1
      (Magnitude.Finite 7)).1
    (⟨[Magnitude.PosInfinite, Magnitude.Finite 7, Magnitude.PosInfinite,
        Magnitude.PosInfinite], ∅, 2, EdgeType.Directed⟩ : AdjMatrix Nat)
    rfl).2.2.2.1

end AdjMatrix

/-- C8: `ConnectedComponents::init` fails (with the panic) exactly when the
input graph is directed, succeeds with the empty listener state otherwise,
and `execute` never consults the direction flag: its result is unchanged
under any value of that flag. -/
theorem claim_C8_direction_precondition (g : CCGraph) :
    ((∃ e, ConnectedComponents.init g = .error e) ↔ g.is_directed = true) ∧
    (g.is_directed = false →
      ConnectedComponents.init g = .ok { current_component := [], ccs := [] }) ∧
    (∀ b cc, ConnectedComponents.execute cc { g with is_directed := b } =
      ConnectedComponents.execute cc g) := by
  refine ⟨⟨fun ⟨e, he⟩ => ?_, fun hd =>
      ⟨"Can not execute this algorithm on an undirected graph. Use one of the algorithms in scc module.",
        by simp [ConnectedComponents.init, hd]⟩⟩,
    fun hd => by simp [ConnectedComponents.init, hd], fun b cc => rfl⟩
  by_contra hnd
  rw [ConnectedComponents.init, if_neg (by simpa using hnd)] at he
  exact absurd he (by simp)

theorem claim_C8_witness :
    ∃ e, ConnectedComponents.init sampleDirectedGraph = .error e :=
  (claim_C8_direction_precondition sampleDirectedGraph).1.mpr rfl

/-- C9: every capability-trait operation of `MultiRootSubgraph` returns
exactly what the wrapped subgraph returns, and `is_root` answers membership
in the roots supplied at `init`. -/
theorem claim_C9_subgraph_delegation {E : Type} (sub : Subgraph E)
    (roots : List Nat) (v i j k : Nat) :
    (MultiRootSubgraph.init sub roots).neighbors i = sub.neighborsFn i ∧
    (MultiRootSubgraph.init sub roots).vertices = sub.verticesFn ∧
    (MultiRootSubgraph.init sub roots).edges_from i = sub.edgesFromFn i ∧
    (MultiRootSubgraph.init sub roots).edges_between i j = sub.edgesBetweenFn i j ∧
    (MultiRootSubgraph.init sub roots).edge_between i j k = sub.edgeBetweenFn i j k ∧
    (MultiRootSubgraph.init sub roots).edge k = sub.edgeFn k ∧
    (MultiRootSubgraph.init sub roots).has_any_edge i j = sub.hasAnyEdgeFn i j ∧
    (MultiRootSubgraph.init sub roots).edges = sub.edgesFn ∧
    (MultiRootSubgraph.init sub roots).as_directed_edges = sub.asDirectedEdgesFn ∧
    (MultiRootSubgraph.init sub roots).edges_count = sub.edgesCountFn ∧
    ((MultiRootSubgraph.init sub roots).roots = roots) ∧
    ((MultiRootSubgraph.init sub roots).is_root v = true ↔ v ∈ roots) := by
  refine ⟨rfl, rfl, rfl, rfl, rfl, rfl, rfl, rfl, rfl, rfl, rfl, ?_⟩
  rw [MultiRootSubgraph.is_root, List.find?_isSome]
  constructor
  · rintro ⟨x, hx, hbeq⟩
    rwa [show x = v from by simpa using hbeq] at hx
  · intro hv
    exact ⟨v, hv, by simp⟩

theorem claim_C9_witness :
    (MultiRootSubgraph.init sampleSubgraph [3, 5]).is_root 5 = true :=
  (claim_C9_subgraph_delegation sampleSubgraph [3, 5] 5 0 0 0).2.2.2.2.2.2.2.2.2.2.2.mpr
    (by simp)

/-! ## Reachability and forest toolkit for Kruskal -/

theorem EStep.swap {l : List (Nat × Nat)} {x y : Nat} (h : EStep l x y) :
    EStep l y x :=
  h.elim Or.inr Or.inl

theorem EReach.refl {l : List (Nat × Nat)} {x : Nat} : EReach l x x :=
  Relation.ReflTransGen.refl

theorem EReach.trans {l : List (Nat × Nat)} {x y z : Nat}
    (h1 : EReach l x y) (h2 : EReach l y z) : EReach l x z :=
  Relation.ReflTransGen.trans h1 h2

theorem EReach.single {l : List (Nat × Nat)} {x y : Nat} (h : EStep l x y) :
    EReach l x y :=
  Relation.ReflTransGen.single h

theorem EReach.symm {l : List (Nat × Nat)} {x y : Nat} (h : EReach l x y) :
    EReach l y x := by
  induction h with
  | refl => exact EReach.refl
  | tail _hab hbc ih => exact EReach.trans (EReach.single hbc.swap) ih

theorem ereach_mono {l1 l2 : List (Nat × Nat)} (hsub : ∀ e, e ∈ l1 → e ∈ l2)
    {x y : Nat} (h : EReach l1 x y) : EReach l2 x y :=
  Relation.ReflTransGen.mono
    (fun _a _b hab => hab.elim (fun m => Or.inl (hsub _ m)) (fun m => Or.inr (hsub _ m)))
    h

theorem ereach_nil {x y : Nat} (h : EReach [] x y) : x = y := by
  induction h with
  | refl => rfl
  | tail _hab hbc _ih => exact absurd hbc (by simp [EStep])

theorem ereach_append_singleton {l : List (Nat × Nat)} {f : Nat × Nat} {x y : Nat}
    (h : EReach (l ++ [f]) x y) :
    EReach l x y ∨ (EReach l x f.1 ∧ EReach l f.2 y) ∨
      (EReach l x f.2 ∧ EReach l f.1 y) := by
  induction h with
  | refl => exact Or.inl EReach.refl
  | tail _hab hbc ih =>
      rename_i b c
      have hstep : EStep l b c ∨ (b = f.1 ∧ c = f.2) ∨ (b = f.2 ∧ c = f.1) := by
        rcases hbc with h1 | h1 <;> rw [List.mem_append] at h1
        · rcases h1 with h1 | h1
          · exact Or.inl (Or.inl h1)
          · have : (b, c) = f := by simpa using h1
            exact Or.inr (Or.inl ⟨congrArg Prod.fst this, congrArg Prod.snd this⟩)
        · rcases h1 with h1 | h1
          · exact Or.inl (Or.inr h1)
          · have : (c, b) = f := by simpa using h1
            exact Or.inr (Or.inr ⟨congrArg Prod.snd this, congrArg Prod.fst this⟩)
      rcases ih with hr | ⟨h1, h2⟩ | ⟨h1, h2⟩ <;>
        rcases hstep with hs | ⟨hb, hc⟩ | ⟨hb, hc⟩
      · exact Or.inl (hr.trans (EReach.single hs))
      · subst hb; subst hc; exact Or.inr (Or.inl ⟨hr, EReach.refl⟩)
      · subst hb; subst hc; exact Or.inr (Or.inr ⟨hr, EReach.refl⟩)
      · exact Or.inr (Or.inl ⟨h1, h2.trans (EReach.single hs)⟩)
      · subst hb; subst hc; exact Or.inr (Or.inl ⟨h1, EReach.refl⟩)
      · subst hb; subst hc; exact Or.inl h1
      · exact Or.inr (Or.inr ⟨h1, h2.trans (EReach.single hs)⟩)
      · subst hb; subst hc; exact Or.inl h1
      · subst hb; subst hc; exact Or.inr (Or.inr ⟨h1, EReach.refl⟩)

theorem eacyclic_nil : EAcyclic [] := by
  intro l1 e l2 hdec
  exact absurd hdec.symm (by simp)

theorem sublist_split {α : Type} {l1 l2 : List α} {e : α} {L : List α}
    (h : List.Sublist (l1 ++ e :: l2) L) :
    ∃ m1 m2, L = m1 ++ e :: m2 ∧ List.Sublist l1 m1 ∧ List.Sublist l2 m2 := by
  obtain ⟨r1, r2, rfl, hr1, hr2⟩ := List.append_sublist_iff.mp h
  obtain ⟨p1, p2, rfl, hep, hl2⟩ := List.cons_sublist_iff.mp hr2
  obtain ⟨p1a, p1b, rfl⟩ := List.append_of_mem hep
  refine ⟨r1 ++ p1a, p1b ++ p2, by simp, ?_, ?_⟩
  · exact hr1.trans (List.sublist_append_left _ _)
  · exact hl2.trans (List.sublist_append_right _ _)

theorem eacyclic_sublist {l' l : List (Nat × Nat)} (hs : List.Sublist l' l)
    (h : EAcyclic l) : EAcyclic l' := by
  intro l1 e l2 hdec
  subst hdec
  obtain ⟨m1, m2, rfl, hm1, hm2⟩ := sublist_split hs
  intro hr
  refine h m1 e m2 rfl (ereach_mono ?_ hr)
  intro x hx
  rw [List.mem_append] at hx ⊢
  exact hx.imp (fun hx => hm1.subset hx) (fun hx => hm2.subset hx)

theorem ereach_perm {l l' : List (Nat × Nat)} (hp : l.Perm l') {x y : Nat}
    (h : EReach l x y) : EReach l' x y :=
  ereach_mono (fun e he => hp.mem_iff.mp he) h

theorem eacyclic_perm {l l' : List (Nat × Nat)} (hp : l.Perm l')
    (h : EAcyclic l) : EAcyclic l' := by
  intro l1 e l2 hdec
  subst hdec
  have hmem : e ∈ l := hp.mem_iff.mpr (by simp)
  obtain ⟨m1, m2, rfl⟩ := List.append_of_mem hmem
  have hperm2 : (m1 ++ m2).Perm (l1 ++ l2) := by
    have h1 : (e :: (m1 ++ m2)).Perm (e :: (l1 ++ l2)) :=
      (List.perm_middle.symm.trans hp).trans List.perm_middle
    exact h1.cons_inv
  intro hr
  exact h m1 e m2 rfl (ereach_perm hperm2.symm hr)

theorem ereach_middle_iff {l1 l2 : List (Nat × Nat)} {f : Nat × Nat} {x y : Nat} :
    EReach (l1 ++ f :: l2) x y ↔ EReach ((l1 ++ l2) ++ [f]) x y := by
  constructor <;> refine fun h => ereach_mono (fun e he => ?_) h <;>
    simp only [List.mem_append, List.mem_cons, List.mem_singleton] at he ⊢ <;>
    tauto

theorem eacyclic_extend {A : List (Nat × Nat)} {u v : Nat}
    (hA : EAcyclic A) (hnr : ¬ EReach A u v) : EAcyclic (A ++ [(u, v)]) := by
  intro l1 e l2 hdec
  rcases List.eq_nil_or_concat l2 with rfl | ⟨l2', a, rfl⟩
  · obtain ⟨h1, h2⟩ := List.append_inj' hdec.symm rfl
    have he : e = (u, v) := by simpa using h2
    subst h1
    rw [List.append_nil]
    subst he
    exact hnr
  · rw [List.concat_eq_append] at hdec
    have hdec2 : (l1 ++ e :: l2') ++ [a] = A ++ [(u, v)] := by
      simpa using hdec.symm
    obtain ⟨hA2, ha⟩ := List.append_inj' hdec2 rfl
    have ha2 : a = (u, v) := by simpa using ha
    subst ha2
    intro hr
    rw [List.concat_eq_append] at hr
    rw [show l1 ++ (l2' ++ [(u, v)]) = (l1 ++ l2') ++ [(u, v)] by simp] at hr
    have hA' : EAcyclic (l1 ++ e :: l2') := by rw [hA2]; exact hA
    have hstepA : EStep A e.1 e.2 := Or.inl (by rw [← hA2]; simp)
    have hsubA : ∀ x, x ∈ l1 ++ l2' → x ∈ A := by
      intro x hx
      rw [← hA2]
      simp only [List.mem_append, List.mem_cons] at hx ⊢
      tauto
    rcases ereach_append_singleton hr with hc | ⟨h1, h2⟩ | ⟨h1, h2⟩
    · exact hA' l1 e l2' rfl hc
    · exact hnr (((ereach_mono hsubA h1).symm.trans
        (EReach.single hstepA)).trans (ereach_mono hsubA h2).symm)
    · exact hnr ((ereach_mono hsubA h2).trans
        ((EReach.single hstepA.swap).trans (ereach_mono hsubA h1)))

theorem isRepsFor_nil (verts : Finset Nat) : IsRepsFor verts [] verts :=
  ⟨Finset.Subset.refl _, fun v hv => ⟨v, hv, EReach.refl⟩,
    fun _r1 _h1 _r2 _h2 hr => ereach_nil hr⟩

theorem isRepsFor_merge {verts : Finset Nat} {l : List (Nat × Nat)}
    {reps : Finset Nat} (h : IsRepsFor verts l reps) {u v : Nat}
    (hu : u ∈ verts) (hv : v ∈ verts) (hnr : ¬ EReach l u v) :
    ∃ reps2, IsRepsFor verts (l ++ [(u, v)]) reps2 ∧
      reps2.card + 1 = reps.card := by
  obtain ⟨hsub, hcover, hpair⟩ := h
  obtain ⟨ru, hru, hrux⟩ := hcover u hu
  obtain ⟨rv, hrv, hrvx⟩ := hcover v hv
  have hmono : ∀ x, x ∈ l → x ∈ l ++ [(u, v)] :=
    fun x hx => List.mem_append_left _ hx
  have hne : ru ≠ rv := by
    intro he
    exact hnr (hrux.symm.trans (he ▸ hrvx))
  refine ⟨reps.erase rv, ⟨?_, ?_, ?_⟩, ?_⟩
  · exact (Finset.erase_subset _ _).trans hsub
  · intro w hw
    obtain ⟨r0, hr0, hr0x⟩ := hcover w hw
    by_cases hc : r0 = rv
    · refine ⟨ru, Finset.mem_erase.mpr ⟨hne, hru⟩, ?_⟩
      have hstep : EStep (l ++ [(u, v)]) u v := Or.inl (by simp)
      exact ((ereach_mono hmono hrux).trans (EReach.single hstep)).trans
        ((ereach_mono hmono hrvx.symm).trans
          (ereach_mono hmono (hc ▸ hr0x)))
    · exact ⟨r0, Finset.mem_erase.mpr ⟨hc, hr0⟩, ereach_mono hmono hr0x⟩
  · intro r1 h1 r2 h2 hr
    obtain ⟨h1ne, h1m⟩ := Finset.mem_erase.mp h1
    obtain ⟨h2ne, h2m⟩ := Finset.mem_erase.mp h2
    rcases ereach_append_singleton hr with hc | ⟨ha, hb⟩ | ⟨ha, hb⟩
    · exact hpair r1 h1m r2 h2m hc
    · exact absurd (hpair r2 h2m rv hrv (hb.symm.trans hrvx.symm)) h2ne
    · exact absurd (hpair r1 h1m rv hrv (ha.trans hrvx.symm)) h1ne
  · have hcard := Finset.card_erase_of_mem hrv
    have hpos : 0 < reps.card := Finset.card_pos.mpr ⟨rv, hrv⟩
    omega

theorem isRepsFor_congr {verts : Finset Nat} {l l' : List (Nat × Nat)}
    {reps : Finset Nat} (hiff : ∀ x y, EReach l x y ↔ EReach l' x y)
    (h : IsRepsFor verts l reps) : IsRepsFor verts l' reps :=
  ⟨h.1,
    fun v hv => (h.2.1 v hv).imp (fun r hr => ⟨hr.1, (hiff r v).mp hr.2⟩),
    fun r1 h1 r2 h2 hr => h.2.2 r1 h1 r2 h2 ((hiff r1 r2).mpr hr)⟩

theorem isRepsFor_card_mono {verts : Finset Nat} {lA lB : List (Nat × Nat)}
    {repsA repsB : Finset Nat}
    (hA : IsRepsFor verts lA repsA) (hB : IsRepsFor verts lB repsB)
    (himp : ∀ x y, EReach lB x y → EReach lA x y) :
    repsA.card ≤ repsB.card := by
  classical
  refine Finset.card_le_card_of_injOn
    (fun r => if h : ∃ rb ∈ repsB, EReach lB rb r then h.choose else r) ?_ ?_
  · intro r hr
    have hex : ∃ rb ∈ repsB, EReach lB rb r := hB.2.1 r (hA.1 hr)
    show (if h : ∃ rb ∈ repsB, EReach lB rb r then h.choose else r) ∈ repsB
    rw [dif_pos hex]
    exact hex.choose_spec.1
  · intro r1 h1 r2 h2 heq
    rw [Finset.mem_coe] at h1 h2
    have hex1 : ∃ rb ∈ repsB, EReach lB rb r1 := hB.2.1 r1 (hA.1 h1)
    have hex2 : ∃ rb ∈ repsB, EReach lB rb r2 := hB.2.1 r2 (hA.1 h2)
    have heq2 : (if h : ∃ rb ∈ repsB, EReach lB rb r1 then h.choose else r1) =
        (if h : ∃ rb ∈ repsB, EReach lB rb r2 then h.choose else r2) := heq
    rw [dif_pos hex1, dif_pos hex2] at heq2
    have hr2 : EReach lA hex1.choose r2 := by
      rw [heq2]
      exact himp _ _ hex2.choose_spec.2
    exact hA.2.2 r1 h1 r2 h2 ((himp _ _ hex1.choose_spec.2).symm.trans hr2)

theorem forest_count {verts : Finset Nat} {F : List (Nat × Nat)}
    (hac : EAcyclic F) (hends : ∀ e ∈ F, e.1 ∈ verts ∧ e.2 ∈ verts) :
    ∃ reps, IsRepsFor verts F reps ∧ F.length + reps.card = verts.card := by
  induction F using List.reverseRecOn with
  | nil => exact ⟨verts, isRepsFor_nil verts, by simp⟩
  | append_singleton F e ih =>
      have hF : EAcyclic F :=
        eacyclic_sublist (List.sublist_append_left F [e]) hac
      have hbridge : ¬ EReach F e.1 e.2 := by
        have := hac F e [] rfl
        rwa [List.append_nil] at this
      obtain ⟨reps, hreps, hcard⟩ :=
        ih hF (fun x hx => hends x (List.mem_append_left _ hx))
      have he1 : e.1 ∈ verts := (hends e (by simp)).1
      have he2 : e.2 ∈ verts := (hends e (by simp)).2
      obtain ⟨reps2, hreps2, hcard2⟩ := isRepsFor_merge hreps he1 he2 hbridge
      refine ⟨reps2, ?_, ?_⟩
      · rwa [Prod.mk.eta] at hreps2
      · simp only [List.length_append, List.length_singleton]
        omega

/-! ## The continuous id map is a bijection onto the virtual id range -/

theorem virtOf_lt {W : Type} (g : KGraph W) {r : Nat} (hr : r ∈ g.verts) :
    g.virtOf r < g.vertexCount := by
  rw [KGraph.virtOf, KGraph.vertexCount]
  have h := List.indexOf_lt_length.mpr ((Finset.mem_sort (· ≤ ·)).mpr hr)
  rwa [Finset.length_sort] at h

theorem virtOf_inj {W : Type} (g : KGraph W) {r1 r2 : Nat}
    (h1 : r1 ∈ g.verts) (h2 : r2 ∈ g.verts)
    (he : g.virtOf r1 = g.virtOf r2) : r1 = r2 := by
  have m1 : List.indexOf r1 (g.verts.sort (· ≤ ·)) < (g.verts.sort (· ≤ ·)).length :=
    List.indexOf_lt_length.mpr ((Finset.mem_sort _).mpr h1)
  have g1 := List.getElem_indexOf m1
  have g2 := List.getElem_indexOf
    (List.indexOf_lt_length.mpr ((Finset.mem_sort (· ≤ ·)).mpr h2))
  rw [KGraph.virtOf] at he
  rw [← g1, ← g2]
  congr 1

theorem virtOf_surj {W : Type} (g : KGraph W) {j : Nat} (hj : j < g.vertexCount) :
    ∃ r ∈ g.verts, g.virtOf r = j := by
  have hlen : j < (g.verts.sort (· ≤ ·)).length := by
    rw [Finset.length_sort]
    exact hj
  refine ⟨(g.verts.sort (· ≤ ·))[j], (Finset.mem_sort _).mp (List.getElem_mem _), ?_⟩
  rw [KGraph.virtOf]
  exact List.indexOf_getElem (Finset.sort_nodup _ _) j hlen

/-! ## Adequacy of the union-find state -/

theorem setsGood_eq_iff {W : Type} {g : KGraph W} {acc : List (Nat × Nat)}
    {k : Kruskal} (hsg : SetsGood g acc k) {a b : Nat}
    (ha : a ∈ g.verts) (hb : b ∈ g.verts) :
    k.sets (g.virtOf a) = k.sets (g.virtOf b) ↔ EReach acc a b := by
  constructor
  · intro he
    have hbmem : g.virtOf b ∈ k.sets (g.virtOf b) :=
      (hsg b hb _).mpr ⟨b, hb, rfl, EReach.refl⟩
    rw [← he] at hbmem
    obtain ⟨v, hv, hvj, hreach⟩ := (hsg a ha _).mp hbmem
    have hvb : v = b := virtOf_inj g hv hb hvj
    exact hvb ▸ hreach
  · intro hr
    ext j
    rw [hsg a ha j, hsg b hb j]
    constructor
    · rintro ⟨v, hv, rfl, h2⟩
      exact ⟨v, hv, rfl, hr.symm.trans h2⟩
    · rintro ⟨v, hv, rfl, h2⟩
      exact ⟨v, hv, rfl, hr.trans h2⟩

theorem setsGood_step {W : Type} {g : KGraph W} {acc : List (Nat × Nat)}
    {k : Kruskal} (hsg : SetsGood g acc k) {a b : Nat}
    (ha : a ∈ g.verts) (hb : b ∈ g.verts) :
    SetsGood g (acc ++ [(a, b)])
      ⟨fun i => if i ∈ k.sets (g.virtOf a) ∪ k.sets (g.virtOf b)
          then k.sets (g.virtOf a) ∪ k.sets (g.virtOf b) else k.sets i⟩ := by
  intro u hu j
  have hmono : ∀ x, x ∈ acc → x ∈ acc ++ [(a, b)] :=
    fun x hx => List.mem_append_left _ hx
  have hstep : EStep (acc ++ [(a, b)]) a b := Or.inl (by simp)
  by_cases hcase : g.virtOf u ∈ k.sets (g.virtOf a) ∪ k.sets (g.virtOf b)
  · have huab : EReach acc u a ∨ EReach acc u b := by
      rcases Finset.mem_union.mp hcase with hm | hm
      · obtain ⟨v, hv, hvj, hr⟩ := (hsg a ha _).mp hm
        have hvu : v = u := virtOf_inj g hv hu hvj
        exact Or.inl (hvu ▸ hr).symm
      · obtain ⟨v, hv, hvj, hr⟩ := (hsg b hb _).mp hm
        have hvu : v = u := virtOf_inj g hv hu hvj
        exact Or.inr (hvu ▸ hr).symm
    have hua : EReach (acc ++ [(a, b)]) u a := by
      rcases huab with h | h
      · exact ereach_mono hmono h
      · exact (ereach_mono hmono h).trans (EReach.single hstep.swap)
    have hub : EReach (acc ++ [(a, b)]) u b :=
      hua.trans (EReach.single hstep)
    show (j ∈ if g.virtOf u ∈ k.sets (g.virtOf a) ∪ k.sets (g.virtOf b)
        then k.sets (g.virtOf a) ∪ k.sets (g.virtOf b)
        else k.sets (g.virtOf u)) ↔ _
    rw [if_pos hcase]
    constructor
    · intro hj
      rcases Finset.mem_union.mp hj with hm | hm
      · obtain ⟨v, hv, hvj, hr⟩ := (hsg a ha _).mp hm
        exact ⟨v, hv, hvj, hua.trans (ereach_mono hmono hr)⟩
      · obtain ⟨v, hv, hvj, hr⟩ := (hsg b hb _).mp hm
        exact ⟨v, hv, hvj, hub.trans (ereach_mono hmono hr)⟩
    · rintro ⟨v, hv, rfl, hr⟩
      rcases ereach_append_singleton hr with hc | ⟨h1, h2⟩ | ⟨h1, h2⟩
      · rcases huab with h | h
        · exact Finset.mem_union_left _
            ((hsg a ha _).mpr ⟨v, hv, rfl, h.symm.trans hc⟩)
        · exact Finset.mem_union_right _
            ((hsg b hb _).mpr ⟨v, hv, rfl, h.symm.trans hc⟩)
      · exact Finset.mem_union_right _ ((hsg b hb _).mpr ⟨v, hv, rfl, h2⟩)
      · exact Finset.mem_union_left _ ((hsg a ha _).mpr ⟨v, hv, rfl, h2⟩)
  · show (j ∈ if g.virtOf u ∈ k.sets (g.virtOf a) ∪ k.sets (g.virtOf b)
        then k.sets (g.virtOf a) ∪ k.sets (g.virtOf b)
        else k.sets (g.virtOf u)) ↔ _
    rw [if_neg hcase, hsg u hu j]
    constructor
    · rintro ⟨v, hv, rfl, hr⟩
      exact ⟨v, hv, rfl, ereach_mono hmono hr⟩
    · rintro ⟨v, hv, rfl, hr⟩
      rcases ereach_append_singleton hr with hc | ⟨h1, h2⟩ | ⟨h1, h2⟩
      · exact ⟨v, hv, rfl, hc⟩
      · exact absurd (Finset.mem_union_left _
          ((hsg a ha _).mpr ⟨u, hu, rfl, h1.symm⟩)) hcase
      · exact absurd (Finset.mem_union_right _
          ((hsg b hb _).mpr ⟨u, hu, rfl, h1.symm⟩)) hcase

/-! ## Properties of the sorted deduplicated edge list -/

theorem kruskalEdges_perm {W : Type} [LinearOrder W] (g : KGraph W) :
    (kruskalEdges g).Perm (KGraph.canonicalEdges g) :=
  List.mergeSort_perm _ _

theorem mem_kruskalEdges_mem_edgeList {W : Type} [LinearOrder W] {g : KGraph W}
    {e : Nat × Nat × W} (he : e ∈ kruskalEdges g) : e ∈ g.edgeList := by
  have h1 : e ∈ KGraph.canonicalEdges g := (kruskalEdges_perm g).mem_iff.mp he
  exact (List.mem_filter.mp h1).1

theorem mem_kruskalEdges_lt {W : Type} [LinearOrder W] {g : KGraph W}
    {e : Nat × Nat × W} (he : e ∈ kruskalEdges g) : e.1 < e.2.1 := by
  have h1 : e ∈ KGraph.canonicalEdges g := (kruskalEdges_perm g).mem_iff.mp he
  exact of_decide_eq_true (List.mem_filter.mp h1).2

theorem kruskalEdges_sorted {W : Type} [LinearOrder W] (g : KGraph W) :
    (kruskalEdges g).Pairwise (fun e1 e2 => e1.2.2 ≤ e2.2.2) := by
  have hs := @List.sorted_mergeSort (Nat × Nat × W)
    (fun e1 e2 => decide (e1.2.2 ≤ e2.2.2))
    (fun a b c hab hbc =>
      decide_eq_true (le_trans (of_decide_eq_true hab) (of_decide_eq_true hbc)))
    (fun a b => by
      rcases le_total a.2.2 b.2.2 with h | h <;> simp [h])
    (KGraph.canonicalEdges g)
  exact hs.imp (fun h => of_decide_eq_true h)

/-! ## The Kruskal loop preserves its invariant -/

theorem kruskalInv_init {W : Type} [LinearOrder W] (g : KGraph W) :
    KruskalInv g [] (Kruskal.init g) [] := by
  refine ⟨List.nil_sublist _, ?_, by simp, ?_⟩
  · intro l1 e l2 hdec
    exact absurd hdec.symm (by simp)
  · intro u hu j
    constructor
    · intro hj
      have hj2 : j = g.virtOf u := by simpa [Kruskal.init] using hj
      exact ⟨u, hu, hj2.symm, EReach.refl⟩
    · rintro ⟨v, hv, rfl, hr⟩
      have huv : u = v := ereach_nil hr
      simp [Kruskal.init, huv]

theorem kruskalStepFull_inv {W : Type} [LinearOrder W] {g : KGraph W}
    {Q : List (Nat × Nat × W)} {k : Kruskal} {accF : List (Nat × Nat × W)}
    {e : Nat × Nat × W}
    (he1 : e.1 ∈ g.verts) (he2 : e.2.1 ∈ g.verts)
    (hQsorted : ∀ x ∈ Q, x.2.2 ≤ e.2.2)
    (hinv : KruskalInv g Q k accF) :
    KruskalInv g (Q ++ [e]) (kruskalStepFull g (k, accF) e).1
      (kruskalStepFull g (k, accF) e).2 := by
  obtain ⟨hsub, hac, hproc, hsg⟩ := hinv
  by_cases hne : k.sets (g.virtOf e.1) ≠ k.sets (g.virtOf e.2.1)
  · have hstep_eq : kruskalStepFull g (k, accF) e =
        (⟨fun i => if i ∈ k.sets (g.virtOf e.1) ∪ k.sets (g.virtOf e.2.1)
            then k.sets (g.virtOf e.1) ∪ k.sets (g.virtOf e.2.1)
            else k.sets i⟩, accF ++ [e]) := by
      simp only [kruskalStepFull]
      rw [if_pos hne]
    rw [hstep_eq]
    have hnreach : ¬ EReach (accF.map projE) e.1 e.2.1 :=
      fun hr => hne ((setsGood_eq_iff hsg he1 he2).mpr hr)
    refine ⟨hsub.append (List.Sublist.refl [e]), ?_, ?_, ?_⟩
    · show WAcyclic (accF ++ [e])
      rw [WAcyclic, List.map_append]
      exact eacyclic_extend hac hnreach
    · intro x hx
      rcases List.mem_append.mp hx with hx | hx
      · rcases hproc x hx with hm | hm
        · exact Or.inl (List.mem_append_left _ hm)
        · refine Or.inr (ereach_mono (fun y hy => ?_) hm)
          simp only [List.mem_map, List.mem_filter] at hy ⊢
          obtain ⟨z, ⟨hz1, hz2⟩, hz3⟩ := hy
          exact ⟨z, ⟨List.mem_append_left _ hz1, hz2⟩, hz3⟩
      · have hxe : x = e := by simpa using hx
        exact Or.inl (hxe ▸ List.mem_append_right _ (by simp))
    · show SetsGood g ((accF ++ [e]).map projE)
        ⟨fun i => if i ∈ k.sets (g.virtOf e.1) ∪ k.sets (g.virtOf e.2.1)
            then k.sets (g.virtOf e.1) ∪ k.sets (g.virtOf e.2.1)
            else k.sets i⟩
      rw [List.map_append]
      simpa [projE] using setsGood_step hsg he1 he2
  · have hstep_eq : kruskalStepFull g (k, accF) e = (k, accF) := by
      simp only [kruskalStepFull]
      rw [if_neg hne]
    rw [hstep_eq]
    have heq : k.sets (g.virtOf e.1) = k.sets (g.virtOf e.2.1) := not_not.mp hne
    have hreach : EReach (accF.map projE) e.1 e.2.1 :=
      (setsGood_eq_iff hsg he1 he2).mp heq
    refine ⟨hsub.trans (List.sublist_append_left Q [e]), hac, ?_, hsg⟩
    intro x hx
    rcases List.mem_append.mp hx with hx | hx
    · exact hproc x hx
    · have hxe : x = e := by simpa using hx
      subst hxe
      refine Or.inr ?_
      have hfilter : accF.filter (fun y => decide (y.2.2 ≤ x.2.2)) = accF := by
        rw [List.filter_eq_self]
        intro y hy
        exact decide_eq_true (hQsorted y (hsub.subset hy))
      rw [hfilter]
      exact hreach

theorem kruskal_fold_inv {W : Type} [LinearOrder W] {g : KGraph W}
    (hvalid : ∀ e ∈ g.edgeList, e.1 ∈ g.verts ∧ e.2.1 ∈ g.verts) :
    ∀ (R Q : List (Nat × Nat × W)) (k : Kruskal) (accF : List (Nat × Nat × W)),
      kruskalEdges g = Q ++ R → KruskalInv g Q k accF →
      KruskalInv g (kruskalEdges g)
        (R.foldl (kruskalStepFull g) (k, accF)).1
        (R.foldl (kruskalStepFull g) (k, accF)).2 := by
  intro R
  induction R with
  | nil =>
      intro Q k accF hQ hinv
      rw [List.append_nil] at hQ
      subst hQ
      exact hinv
  | cons e R ih =>
      intro Q k accF hQ hinv
      have hQe : kruskalEdges g = (Q ++ [e]) ++ R := by simp [hQ]
      have hemem : e ∈ g.edgeList :=
        mem_kruskalEdges_mem_edgeList (by rw [hQ]; simp)
      have hsorted : ∀ x ∈ Q, x.2.2 ≤ e.2.2 := by
        have hp := kruskalEdges_sorted g
        rw [hQ] at hp
        have := (List.pairwise_append.mp hp).2.2
        intro x hx
        exact this x hx e (by simp)
      have hinv2 := kruskalStepFull_inv (hvalid e hemem).1 (hvalid e hemem).2
        hsorted hinv
      rw [List.foldl_cons]
      exact ih (Q ++ [e]) _ _ hQe hinv2

theorem kruskal_fold_proj {W : Type} [LinearOrder W] (g : KGraph W) :
    ∀ (R : List (Nat × Nat × W)) (k : Kruskal) (acc : List (Nat × Nat × W)),
      R.foldl (kruskalStep g) (k, acc.map projE) =
        ((R.foldl (kruskalStepFull g) (k, acc)).1,
         (R.foldl (kruskalStepFull g) (k, acc)).2.map projE) := by
  intro R
  induction R with
  | nil => intro k acc; simp
  | cons e R ih =>
      intro k acc
      rw [List.foldl_cons, List.foldl_cons]
      by_cases hne : k.sets (g.virtOf e.1) ≠ k.sets (g.virtOf e.2.1)
      · rw [show kruskalStep g (k, acc.map projE) e =
            (⟨fun i => if i ∈ k.sets (g.virtOf e.1) ∪ k.sets (g.virtOf e.2.1)
                then k.sets (g.virtOf e.1) ∪ k.sets (g.virtOf e.2.1)
                else k.sets i⟩,
             acc.map projE ++ [(e.1, e.2.1)]) by
          simp only [kruskalStep]
          rw [if_pos hne]]
        rw [show kruskalStepFull g (k, acc) e =
            (⟨fun i => if i ∈ k.sets (g.virtOf e.1) ∪ k.sets (g.virtOf e.2.1)
                then k.sets (g.virtOf e.1) ∪ k.sets (g.virtOf e.2.1)
                else k.sets i⟩,
             acc ++ [e]) by
          simp only [kruskalStepFull]
          rw [if_pos hne]]
        rw [show acc.map projE ++ [(e.1, e.2.1)] = (acc ++ [e]).map projE by
          simp [projE]]
        exact ih _ _
      · rw [show kruskalStep g (k, acc.map projE) e = (k, acc.map projE) by
          simp only [kruskalStep]
          rw [if_neg hne]]
        rw [show kruskalStepFull g (k, acc) e = (k, acc) by
          simp only [kruskalStepFull]
          rw [if_neg hne]]
        exact ih _ _

theorem kruskal_execute_eq_full {W : Type} [LinearOrder W] (g : KGraph W) :
    (Kruskal.init g).execute g = (kruskalRunFull g).2.map projE := by
  rw [Kruskal.execute, kruskalRunFull]
  rw [show ([] : List (Nat × Nat)) = ([] : List (Nat × Nat × W)).map projE by simp]
  rw [kruskal_fold_proj]

theorem kruskalRunFull_inv {W : Type} [LinearOrder W] (g : KGraph W)
    (hvalid : ∀ e ∈ g.edgeList, e.1 ∈ g.verts ∧ e.2.1 ∈ g.verts) :
    KruskalInv g (kruskalEdges g) (kruskalRunFull g).1 (kruskalRunFull g).2 := by
  have := kruskal_fold_inv hvalid (kruskalEdges g) [] (Kruskal.init g) []
    (by simp) (kruskalInv_init g)
  simpa [kruskalRunFull] using this

/-! ## From the loop invariant to the spanning-forest properties -/

theorem wreach_of_filter {W : Type} {accF : List (Nat × Nat × W)}
    {p : Nat × Nat × W → Bool} {x y : Nat}
    (h : WReach (accF.filter p) x y) : WReach accF x y := by
  refine ereach_mono (fun e he => ?_) h
  simp only [List.mem_map, List.mem_filter] at he ⊢
  obtain ⟨z, ⟨hz1, _hz2⟩, hz3⟩ := he
  exact ⟨z, hz1, hz3⟩

theorem ereach_le_of_edges {A B : List (Nat × Nat)}
    (h : ∀ e ∈ B, EReach A e.1 e.2) {x y : Nat}
    (hr : EReach B x y) : EReach A x y := by
  induction hr with
  | refl => exact EReach.refl
  | tail _hab hbc ih =>
      rcases hbc with hm | hm
      · exact ih.trans (h _ hm)
      · exact ih.trans ((h _ hm).symm)

theorem kruskal_mst_spanning {W : Type} [LinearOrder W] {g : KGraph W}
    (hsym : ∀ u v w, (u, v, w) ∈ g.edgeList → (v, u, w) ∈ g.edgeList)
    (hproc : ∀ e ∈ kruskalEdges g, e ∈ (kruskalRunFull g).2 ∨
      WReach ((kruskalRunFull g).2.filter (fun x => decide (x.2.2 ≤ e.2.2)))
        e.1 e.2.1) :
    ∀ u v w, (u, v, w) ∈ g.edgeList → WReach (kruskalRunFull g).2 u v := by
  have hcanon : ∀ u v w, (u, v, w) ∈ g.edgeList → u < v →
      WReach (kruskalRunFull g).2 u v := by
    intro u v w hm hlt
    have hker : (u, v, w) ∈ kruskalEdges g :=
      (kruskalEdges_perm g).mem_iff.mpr
        (List.mem_filter.mpr ⟨hm, decide_eq_true hlt⟩)
    rcases hproc _ hker with hm2 | hm2
    · exact EReach.single (Or.inl (List.mem_map_of_mem projE hm2))
    · exact wreach_of_filter hm2
  intro u v w hm
  rcases Nat.lt_trichotomy u v with hlt | heq | hgt
  · exact hcanon u v w hm hlt
  · subst heq
    exact EReach.refl
  · exact (hcanon v u w (hsym u v w hm) hgt).symm

theorem wreach_iff_graph {W : Type} {g : KGraph W} {T : List (Nat × Nat × W)}
    (hTsub : ∀ e ∈ T, e ∈ g.edgeList)
    (hspan : ∀ u v w, (u, v, w) ∈ g.edgeList → WReach T u v) :
    ∀ x y, EReach (T.map projE) x y ↔ EReach (g.edgeList.map projE) x y := by
  intro x y
  constructor
  · refine fun h => ereach_mono (fun e he => ?_) h
    simp only [List.mem_map] at he ⊢
    obtain ⟨z, hz, he⟩ := he
    exact ⟨z, hTsub z hz, he⟩
  · intro hr
    refine ereach_le_of_edges ?_ hr
    intro e he
    simp only [List.mem_map] at he
    obtain ⟨⟨a, b, w⟩, hz, rfl⟩ := he
    exact hspan a b w hz

theorem edge_ends_mem {W : Type} {g : KGraph W}
    (hvalid : ∀ e ∈ g.edgeList, e.1 ∈ g.verts ∧ e.2.1 ∈ g.verts)
    {T : List (Nat × Nat × W)} (hTsub : ∀ e ∈ T, e ∈ g.edgeList) :
    ∀ e ∈ T.map projE, e.1 ∈ g.verts ∧ e.2 ∈ g.verts := by
  intro e he
  simp only [List.mem_map] at he
  obtain ⟨z, hz, rfl⟩ := he
  exact ⟨(hvalid z (hTsub z hz)).1, (hvalid z (hTsub z hz)).2⟩

theorem forest_count_graph {W : Type} {g : KGraph W}
    (hvalid : ∀ e ∈ g.edgeList, e.1 ∈ g.verts ∧ e.2.1 ∈ g.verts)
    {T : List (Nat × Nat × W)}
    (hTsub : ∀ e ∈ T, e ∈ g.edgeList) (hTac : WAcyclic T)
    (hspan : ∀ u v w, (u, v, w) ∈ g.edgeList → WReach T u v) :
    ∃ reps, KGraph.IsComponentReps g reps ∧
      T.length + reps.card = g.vertexCount := by
  obtain ⟨reps, hreps, hcard⟩ := forest_count hTac (edge_ends_mem hvalid hTsub)
  refine ⟨reps, isRepsFor_congr (wreach_iff_graph hTsub hspan) hreps, ?_⟩
  rw [List.length_map] at hcard
  exact hcard

theorem componentReps_card_unique {W : Type} {g : KGraph W} {r1 r2 : Finset Nat}
    (h1 : KGraph.IsComponentReps g r1) (h2 : KGraph.IsComponentReps g r2) :
    r1.card = r2.card :=
  le_antisymm (isRepsFor_card_mono h1 h2 (fun _ _ h => h))
    (isRepsFor_card_mono h2 h1 (fun _ _ h => h))

/-! ## Weight minimality: the greedy exchange argument -/

theorem mergeSort_sorted_by_weight {W : Type} [LinearOrder W]
    (l : List (Nat × Nat × W)) :
    (l.mergeSort (fun e1 e2 => decide (e1.2.2 ≤ e2.2.2))).Pairwise
      (fun e1 e2 => e1.2.2 ≤ e2.2.2) := by
  have hs := @List.sorted_mergeSort (Nat × Nat × W)
    (fun e1 e2 => decide (e1.2.2 ≤ e2.2.2))
    (fun a b c hab hbc =>
      decide_eq_true (le_trans (of_decide_eq_true hab) (of_decide_eq_true hbc)))
    (fun a b => by
      rcases le_total a.2.2 b.2.2 with h | h <;> simp [h]) l
  exact hs.imp (fun h => of_decide_eq_true h)

theorem sum_le_sum_pointwise {W : Type} [OrderedAddCommMonoid W] :
    ∀ (l1 l2 : List W), l1.length = l2.length →
      (∀ i (h1 : i < l1.length) (h2 : i < l2.length), l1[i] ≤ l2[i]) →
      l1.sum ≤ l2.sum := by
  intro l1
  induction l1 with
  | nil =>
      intro l2 hlen _
      rw [List.length_nil] at hlen
      rw [List.eq_nil_of_length_eq_zero hlen.symm]
  | cons a l1 ih =>
      intro l2 hlen hpt
      cases l2 with
      | nil => simp at hlen
      | cons b l2 =>
          simp only [List.length_cons] at hlen
          have h0 := hpt 0 (by simp) (by simp)
          have htail := ih l2 (by omega)
            (fun i h1 h2 => hpt (i + 1) (by simpa using h1) (by simpa using h2))
          simp only [List.sum_cons]
          exact add_le_add h0 htail

theorem weight_le_of_mem_take {W : Type} [LinearOrder W]
    {l : List (Nat × Nat × W)}
    (hs : l.Pairwise (fun e1 e2 => e1.2.2 ≤ e2.2.2)) {i : Nat}
    (hi : i < l.length) {x : Nat × Nat × W} (hx : x ∈ l.take (i + 1)) :
    x.2.2 ≤ (l[i]).2.2 := by
  obtain ⟨m, hm, hox⟩ := List.mem_iff_getElem.mp hx
  have hmi : m < i + 1 := by
    have h2 := hm
    rw [List.length_take] at h2
    omega
  have hml : m < l.length := by
    have h2 := hm
    rw [List.length_take] at h2
    omega
  have h1 : (l.take (i + 1))[m]? = l[m]? := List.getElem?_take_of_lt hmi
  rw [List.getElem?_eq_getElem hm, List.getElem?_eq_getElem hml] at h1
  have hox2 : l[m] = x := (Option.some.inj h1).symm.trans hox
  rcases Nat.lt_or_ge m i with hlt | hge
  · rw [← hox2]
    exact List.pairwise_iff_getElem.mp hs m i hml hi hlt
  · have hmei : m = i := by omega
    subst hmei
    rw [hox2]

theorem mem_take_of_weight_lt {W : Type} [LinearOrder W]
    {l : List (Nat × Nat × W)}
    (hs : l.Pairwise (fun e1 e2 => e1.2.2 ≤ e2.2.2)) {i : Nat}
    (hi : i < l.length) {z : Nat × Nat × W} (hz : z ∈ l)
    (hw : z.2.2 < (l[i]).2.2) : z ∈ l.take i := by
  obtain ⟨m, hm, hoz⟩ := List.mem_iff_getElem.mp hz
  have hmi : m < i := by
    by_contra hge
    push_neg at hge
    rcases eq_or_lt_of_le hge with heq | hlt
    · subst heq
      rw [hoz] at hw
      exact absurd hw (lt_irrefl _)
    · have hle := List.pairwise_iff_getElem.mp hs i m hi hm hlt
      rw [hoz] at hle
      exact absurd hw (not_lt.mpr hle)
  have h1 : (l.take i)[m]? = l[m]? := List.getElem?_take_of_lt hmi
  rw [List.getElem?_eq_getElem hm, hoz] at h1
  exact List.getElem?_mem h1

theorem kruskal_pointwise {W : Type} [LinearOrder W] {g : KGraph W}
    (hvalid : ∀ e ∈ g.edgeList, e.1 ∈ g.verts ∧ e.2.1 ∈ g.verts)
    {S1 : List (Nat × Nat × W)}
    (hS1canon : ∀ e ∈ S1, e ∈ KGraph.canonicalEdges g)
    (hS1sorted : S1.Pairwise (fun e1 e2 => e1.2.2 ≤ e2.2.2))
    (hS1ac : WAcyclic S1)
    {i : Nat} (hi : i < (kruskalRunFull g).2.length) (hi2 : i < S1.length) :
    ((kruskalRunFull g).2[i]).2.2 ≤ (S1[i]).2.2 := by
  by_contra hcon
  push_neg at hcon
  obtain ⟨hsub, hac, hproc, _⟩ := kruskalRunFull_inv g hvalid
  have hS1subE : ∀ e ∈ S1, e ∈ g.edgeList :=
    fun e he => (List.mem_filter.mp (hS1canon e he)).1
  have haccF_sorted : (kruskalRunFull g).2.Pairwise
      (fun e1 e2 => e1.2.2 ≤ e2.2.2) :=
    (kruskalEdges_sorted g).sublist hsub
  have hAsub : ∀ e ∈ (kruskalRunFull g).2.take i, e ∈ g.edgeList :=
    fun e he => mem_kruskalEdges_mem_edgeList
      (hsub.subset ((List.take_sublist _ _).subset he))
  have hBsub : ∀ e ∈ S1.take (i + 1), e ∈ g.edgeList :=
    fun e he => hS1subE e ((List.take_sublist _ _).subset he)
  have hAac : EAcyclic (((kruskalRunFull g).2.take i).map projE) :=
    eacyclic_sublist ((List.take_sublist _ _).map projE) hac
  have hBac : EAcyclic ((S1.take (i + 1)).map projE) :=
    eacyclic_sublist ((List.take_sublist _ _).map projE) hS1ac
  have hexch : ∃ eb ∈ (S1.take (i + 1)).map projE,
      ¬ EReach (((kruskalRunFull g).2.take i).map projE) eb.1 eb.2 := by
    by_contra hall
    push_neg at hall
    obtain ⟨repsA, hrA, hcA⟩ := forest_count hAac (edge_ends_mem hvalid hAsub)
    obtain ⟨repsB, hrB, hcB⟩ := forest_count hBac (edge_ends_mem hvalid hBsub)
    have hmono := isRepsFor_card_mono hrA hrB
      (fun x y h => ereach_le_of_edges hall h)
    rw [List.length_map, List.length_take] at hcA hcB
    omega
  obtain ⟨eb, hebB, hebnr⟩ := hexch
  obtain ⟨ebT, hebT, hebproj⟩ := List.mem_map.mp hebB
  have hwle : ebT.2.2 ≤ (S1[i]).2.2 := weight_le_of_mem_take hS1sorted hi2 hebT
  have hwlt : ebT.2.2 < ((kruskalRunFull g).2[i]).2.2 := lt_of_le_of_lt hwle hcon
  have hebK : ebT ∈ kruskalEdges g :=
    (kruskalEdges_perm g).mem_iff.mpr
      (hS1canon ebT ((List.take_sublist _ _).subset hebT))
  rcases hproc ebT hebK with hmem | hre
  · have hz : ebT ∈ (kruskalRunFull g).2.take i :=
      mem_take_of_weight_lt haccF_sorted hi hmem hwlt
    exact hebnr (EReach.single (Or.inl (hebproj ▸ List.mem_map_of_mem projE hz)))
  · have hsubA : ∀ y ∈ ((kruskalRunFull g).2.filter
        (fun x => decide (x.2.2 ≤ ebT.2.2))).map projE,
        y ∈ ((kruskalRunFull g).2.take i).map projE := by
      intro y hy
      simp only [List.mem_map, List.mem_filter] at hy
      obtain ⟨z, ⟨hz1, hz2⟩, rfl⟩ := hy
      have hzw : z.2.2 ≤ ebT.2.2 := of_decide_eq_true hz2
      have hzt : z ∈ (kruskalRunFull g).2.take i :=
        mem_take_of_weight_lt haccF_sorted hi hz1 (lt_of_le_of_lt hzw hwlt)
      exact List.mem_map_of_mem projE hzt
    have h2 := ereach_mono hsubA hre
    rw [← hebproj] at hebnr
    exact hebnr h2

theorem kruskal_minimal {W : Type} [LinearOrderedAddCommMonoid W] {g : KGraph W}
    (hvalid : ∀ e ∈ g.edgeList, e.1 ∈ g.verts ∧ e.2.1 ∈ g.verts)
    (hsym : ∀ u v w, (u, v, w) ∈ g.edgeList → (v, u, w) ∈ g.edgeList)
    {S : List (Nat × Nat × W)} (hSF : IsSpanningForest g S) :
    weightSum (kruskalRunFull g).2 ≤ weightSum S := by
  obtain ⟨hSsub, hSac, hSspan⟩ := hSF
  obtain ⟨hsub, hac, hproc, _⟩ := kruskalRunFull_inv g hvalid
  have haccFsub : ∀ e ∈ (kruskalRunFull g).2, e ∈ g.edgeList :=
    fun e he => mem_kruskalEdges_mem_edgeList (hsub.subset he)
  have hspanM := kruskal_mst_spanning hsym hproc
  have hScanon : ∀ e ∈ S, e ∈ KGraph.canonicalEdges g :=
    fun e he => hSsub.subset he
  have hSsubE : ∀ e ∈ S, e ∈ g.edgeList :=
    fun e he => (List.mem_filter.mp (hScanon e he)).1
  have hSspan2 : ∀ u v w, (u, v, w) ∈ g.edgeList → WReach S u v :=
    fun u v w hm => hSspan (u, v, w) hm
  obtain ⟨repsM, hrM, hcM⟩ := forest_count_graph hvalid haccFsub hac hspanM
  obtain ⟨repsS, hrS, hcS⟩ := forest_count_graph hvalid hSsubE hSac hSspan2
  have hcards := componentReps_card_unique hrM hrS
  have hlen : S.length = (kruskalRunFull g).2.length := by omega
  have hS1perm : (S.mergeSort (fun e1 e2 => decide (e1.2.2 ≤ e2.2.2))).Perm S :=
    List.mergeSort_perm S _
  have hS1len : (S.mergeSort (fun e1 e2 => decide (e1.2.2 ≤ e2.2.2))).length =
      (kruskalRunFull g).2.length := by
    rw [hS1perm.length_eq]
    exact hlen
  have hS1canon : ∀ e ∈ S.mergeSort (fun e1 e2 => decide (e1.2.2 ≤ e2.2.2)),
      e ∈ KGraph.canonicalEdges g :=
    fun e he => hScanon e (hS1perm.mem_iff.mp he)
  have hS1sorted := mergeSort_sorted_by_weight S
  have hS1ac : WAcyclic (S.mergeSort (fun e1 e2 => decide (e1.2.2 ≤ e2.2.2))) :=
    eacyclic_perm ((hS1perm.map projE)).symm hSac
  have hsum : ((kruskalRunFull g).2.map (fun e => e.2.2)).sum ≤
      ((S.mergeSort (fun e1 e2 => decide (e1.2.2 ≤ e2.2.2))).map
        (fun e => e.2.2)).sum := by
    apply sum_le_sum_pointwise
    · rw [List.length_map, List.length_map, hS1len]
    · intro i h1 h2
      rw [List.length_map] at h1 h2
      rw [List.getElem_map, List.getElem_map]
      exact kruskal_pointwise hvalid hS1canon hS1sorted hS1ac h1 h2
  calc weightSum (kruskalRunFull g).2
      = ((kruskalRunFull g).2.map (fun e => e.2.2)).sum := rfl
    _ ≤ ((S.mergeSort (fun e1 e2 => decide (e1.2.2 ≤ e2.2.2))).map
        (fun e => e.2.2)).sum := hsum
    _ = (S.map (fun e => e.2.2)).sum := (hS1perm.map (fun e => e.2.2)).sum_eq
    _ = weightSum S := rfl

/-- C3: on an undirected input graph (edges listed in both directions with
endpoints among the live vertices), `Kruskal::execute` returns a minimum
spanning forest: the returned edge set is acyclic, it has exactly
`V - number_of_components` edges (the component count being the cardinality
of any transversal of the connected components, which is unique), and the
accepted edges carry the minimum total weight among all spanning forests of
the graph. -/
theorem claim_C3_kruskal_minimum_spanning_forest {W : Type}
    [LinearOrderedAddCommMonoid W] (g : KGraph W)
    (hvalid : ∀ e ∈ g.edgeList, e.1 ∈ g.verts ∧ e.2.1 ∈ g.verts)
    (hsym : ∀ u v w, (u, v, w) ∈ g.edgeList → (v, u, w) ∈ g.edgeList) :
    EAcyclic ((Kruskal.init g).execute g) ∧
    (∃ reps, KGraph.IsComponentReps g reps ∧
      ((Kruskal.init g).execute g).length + reps.card = g.vertexCount ∧
      ∀ reps2, KGraph.IsComponentReps g reps2 → reps2.card = reps.card) ∧
    (∃ mstW, mstW.map projE = (Kruskal.init g).execute g ∧
      IsSpanningForest g mstW ∧
      ∀ S, IsSpanningForest g S → weightSum mstW ≤ weightSum S) := by
  obtain ⟨hsub, hac, hproc, _⟩ := kruskalRunFull_inv g hvalid
  have hexec := kruskal_execute_eq_full g
  have haccFsub : ∀ e ∈ (kruskalRunFull g).2, e ∈ g.edgeList :=
    fun e he => mem_kruskalEdges_mem_edgeList (hsub.subset he)
  have hspanM := kruskal_mst_spanning hsym hproc
  refine ⟨?_, ?_, ?_⟩
  · rw [hexec]
    exact hac
  · obtain ⟨reps, hr, hc⟩ := forest_count_graph hvalid haccFsub hac hspanM
    refine ⟨reps, hr, ?_, fun r2 h2 => componentReps_card_unique h2 hr⟩
    rw [hexec, List.length_map]
    exact hc
  · refine ⟨(kruskalRunFull g).2, hexec.symm,
      ⟨(hsub.subperm).trans (kruskalEdges_perm g).subperm, hac, ?_⟩,
      fun S hS => kruskal_minimal hvalid hsym hS⟩
    intro e he
    exact hspanM e.1 e.2.1 e.2.2 he

theorem claim_C3_witness :
    EAcyclic ((Kruskal.init sampleKGraph).execute sampleKGraph) ∧
    (∃ reps, KGraph.IsComponentReps sampleKGraph reps ∧
      ((Kruskal.init sampleKGraph).execute sampleKGraph).length + reps.card =
        sampleKGraph.vertexCount ∧
      ∀ reps2, KGraph.IsComponentReps sampleKGraph reps2 →
        reps2.card = reps.card) ∧
    (∃ mstW, mstW.map projE = (Kruskal.init sampleKGraph).execute sampleKGraph ∧
      IsSpanningForest sampleKGraph mstW ∧
      ∀ S, IsSpanningForest sampleKGraph S → weightSum mstW ≤ weightSum S) :=
  claim_C3_kruskal_minimum_spanning_forest sampleKGraph (by decide)
    (fun u v w hm => by
      have hd : ∀ e ∈ sampleKGraph.edgeList,
          (e.2.1, e.1, e.2.2) ∈ sampleKGraph.edgeList := by decide
      exact hd (u, v, w) hm)

end Prepona
